import Mathlib

/-!
Verification of the ANODE repository: the weight-computation pipeline
(parse_jobhistory_and_compute_weights.py) and the configuration upsert and
deployment sequence (anode_agent_apply.py).

Python floating-point values are modelled by exact rationals; Python dicts
(which preserve insertion order) are modelled by association lists keyed in
first-insertion order.
-/

namespace ANODE

/-! ## Execution records and the weight computer

Shallow embedding of compute_ndt_and_Ci from
src/parse_jobhistory_and_compute_weights.py. -/

/-- A canonical execution record, one tuple (node, start, finish, hdfs_bytes)
of the Python code. -/
structure Entry where
  node : String
  startTime : Int
  finishTime : Int
  hdfsBytes : Int
deriving DecidableEq

/-- The skip test of the aggregation loop:
`if hdfs_bytes <= 0 or finish <= start: continue`. -/
def skipped (e : Entry) : Bool :=
  decide (e.hdfsBytes ≤ 0 ∨ e.finishTime ≤ e.startTime)

/-- The per-record ratio: `texec = (finish - start) / 1000.0`,
`ndt = texec / float(hdfs_bytes)`. -/
def ndtOf (e : Entry) : ℚ :=
  (((e.finishTime : ℚ) - (e.startTime : ℚ)) / 1000) / (e.hdfsBytes : ℚ)

/-- One loop step over the paired dicts ndt_sum / ndt_count:
`ndt_sum[node] += ndt; ndt_count[node] += 1` on insertion-ordered dicts
(both dicts always hold the same keys, so they are paired here). -/
def addSample : List (String × ℚ × ℕ) → String → ℚ → List (String × ℚ × ℕ)
  | [], node, ndt => [(node, ndt, 1)]
  | (n, s, c) :: rest, node, ndt =>
    if n = node then (n, s + ndt, c + 1) :: rest
    else (n, s, c) :: addSample rest node ndt

/-- The aggregation loop of compute_ndt_and_Ci, with the accumulated dict
made explicit. -/
def ndtStatsAux : List (String × ℚ × ℕ) → List Entry → List (String × ℚ × ℕ)
  | acc, [] => acc
  | acc, e :: rest =>
    ndtStatsAux (if skipped e then acc else addSample acc e.node (ndtOf e)) rest

/-- The ndt_sum / ndt_count dicts after the aggregation loop. -/
def ndtStats (entries : List Entry) : List (String × ℚ × ℕ) :=
  ndtStatsAux [] entries

/-- The dict node_avg_ndt: `ndt_sum[node] / ndt_count[node]` per node. -/
def node_avg_ndt (entries : List Entry) : List (String × ℚ) :=
  (ndtStats entries).map fun p => (p.1, p.2.1 / (p.2.2 : ℚ))

/-- The dict node_C: `1.0 / avg_ndt` when the average is positive, else 0.0. -/
def node_C (entries : List Entry) : List (String × ℚ) :=
  (node_avg_ndt entries).map fun p => (p.1, if 0 < p.2 then 1 / p.2 else 0)

/-- totalC: `sum(node_C.values())`. -/
def totalC (entries : List Entry) : ℚ :=
  ((node_C entries).map Prod.snd).sum

/-- The dict node_P: normalized weights when totalC is positive, else the
equal-weight fallback `1.0 / len(node_C) if len(node_C) else 0.0`. -/
def node_P (entries : List Entry) : List (String × ℚ) :=
  if 0 < totalC entries then
    (node_C entries).map fun p => (p.1, p.2 / totalC entries)
  else
    (node_C entries).map fun p =>
      (p.1, if (node_C entries).length = 0 then 0
            else 1 / ((node_C entries).length : ℚ))

/-- The pair (node_C, node_P) that compute_ndt_and_Ci returns. -/
def compute_ndt_and_Ci (entries : List Entry) : List (String × ℚ) × List (String × ℚ) :=
  (node_C entries, node_P entries)

/-! ## Specification-side views of the aggregation -/

/-- Lookup in an association list, first match wins. -/
def findVal (node : String) : List (String × α) → Option α
  | [] => none
  | (n, v) :: rest => if n = node then some v else findVal node rest

/-- The valid (non-skipped) records of one node, in input order. -/
def validFor (node : String) (l : List Entry) : List Entry :=
  l.filter fun e => !skipped e && e.node == node

/-- Sum of the ndt ratios of one node's valid records. -/
def sumNdt (node : String) (l : List Entry) : ℚ :=
  ((validFor node l).map ndtOf).sum

/-- Number of one node's valid records. -/
def cntNdt (node : String) (l : List Entry) : ℕ :=
  (validFor node l).length

/-- Sum of all weights in node_P. -/
def weightSum (l : List Entry) : ℚ :=
  ((node_P l).map Prod.snd).sum

/-- How one node's accumulated (sum, count) cell changes after further
samples carrying total sum s and count c arrive. -/
def afterStats (o : Option (ℚ × ℕ)) (s : ℚ) (c : ℕ) : Option (ℚ × ℕ) :=
  match o with
  | none => if c = 0 then none else some (s, c)
  | some (s0, c0) => some (s0 + s, c0 + c)

/-! ## Lemmas about findVal and addSample -/

theorem findVal_eq_none {α : Type} (a : String) :
    ∀ (L : List (String × α)), findVal a L = none ↔ a ∉ L.map Prod.fst := by
  intro L
  induction L with
  | nil => simp [findVal]
  | cons p rest ih =>
    obtain ⟨n, v⟩ := p
    by_cases hn : n = a
    · subst hn; simp [findVal]
    · have hna : a ≠ n := fun h => hn h.symm
      simp [findVal, hn, ih, hna]

theorem findVal_map {α β : Type} (a : String) (f : α → β) :
    ∀ (L : List (String × α)),
      findVal a (L.map fun p => (p.1, f p.2)) = (findVal a L).map f := by
  intro L
  induction L with
  | nil => simp [findVal]
  | cons p rest ih =>
    obtain ⟨n, v⟩ := p
    by_cases hn : n = a
    · subst hn; simp [findVal]
    · simp [findVal, hn, ih]

theorem findVal_append {α : Type} (a : String) (P Q : List (String × α)) :
    findVal a (P ++ Q) =
      match findVal a P with
      | some v => some v
      | none => findVal a Q := by
  induction P with
  | nil => simp [findVal]
  | cons p rest ih =>
    obtain ⟨n, v⟩ := p
    by_cases hn : n = a
    · subst hn; simp [findVal]
    · simp [findVal, hn, ih]

theorem findVal_addSample_self (node : String) (x : ℚ) :
    ∀ (acc : List (String × ℚ × ℕ)),
      findVal node (addSample acc node x) = afterStats (findVal node acc) x 1 := by
  intro acc
  induction acc with
  | nil => simp [addSample, findVal, afterStats]
  | cons p rest ih =>
    obtain ⟨n, s, c⟩ := p
    by_cases hn : n = node
    · subst hn; simp [addSample, findVal, afterStats]
    · simp [addSample, findVal, hn, ih]

theorem findVal_addSample_ne (node m : String) (x : ℚ) (hm : m ≠ node) :
    ∀ (acc : List (String × ℚ × ℕ)),
      findVal m (addSample acc node x) = findVal m acc := by
  have hnm : node ≠ m := fun h => hm h.symm
  intro acc
  induction acc with
  | nil => simp [addSample, findVal, hnm]
  | cons p rest ih =>
    obtain ⟨n, s, c⟩ := p
    by_cases hn : n = node
    · subst hn
      simp [addSample, findVal, hnm]
    · by_cases hm2 : n = m
      · subst hm2; simp [addSample, findVal, hn]
      · simp [addSample, findVal, hn, hm2, ih]

/-! ## The aggregation loop computes per-node sums and counts -/

theorem validFor_cons (node : String) (e : Entry) (l : List Entry) :
    validFor node (e :: l) =
      if !skipped e && e.node == node then e :: validFor node l
      else validFor node l := by
  simp only [validFor, List.filter_cons]

theorem afterStats_afterStats (o : Option (ℚ × ℕ)) (x s : ℚ) (c : ℕ) :
    afterStats (afterStats o x 1) s c = afterStats o (x + s) (1 + c) := by
  cases o with
  | none => simp [afterStats]
  | some p => obtain ⟨s0, c0⟩ := p; simp [afterStats, add_assoc]

theorem ndtStatsAux_findVal :
    ∀ (l : List Entry) (acc : List (String × ℚ × ℕ)) (node : String),
      findVal node (ndtStatsAux acc l) =
        afterStats (findVal node acc) (sumNdt node l) (cntNdt node l) := by
  intro l
  induction l with
  | nil =>
    intro acc node
    cases h : findVal node acc with
    | none => simp [ndtStatsAux, afterStats, h, sumNdt, cntNdt, validFor]
    | some p =>
      obtain ⟨s0, c0⟩ := p
      simp [ndtStatsAux, afterStats, h, sumNdt, cntNdt, validFor]
  | cons e rest ih =>
    intro acc node
    by_cases hskip : skipped e
    · have hcontrib : (!skipped e && e.node == node) = false := by
        simp [hskip]
      simp only [ndtStatsAux, if_pos hskip, ih, sumNdt, cntNdt,
        validFor_cons, hcontrib, Bool.false_eq_true, if_false]
    · by_cases hnode : e.node = node
      · have hcontrib : (!skipped e && e.node == node) = true := by
          simp [hskip, hnode]

        have hsum : sumNdt node (e :: rest) = ndtOf e + sumNdt node rest := by
          simp [sumNdt, validFor_cons, hcontrib]
        have hcnt : cntNdt node (e :: rest) = 1 + cntNdt node rest := by
          simp [cntNdt, validFor_cons, hcontrib, Nat.add_comm]
        rw [ndtStatsAux, if_neg hskip, ih, hsum, hcnt, hnode,
          findVal_addSample_self, afterStats_afterStats]
      · have hcontrib : (!skipped e && e.node == node) = false := by
          simp [hnode]
        have hne : node ≠ e.node := fun h => hnode h.symm
        rw [ndtStatsAux, if_neg hskip, ih, findVal_addSample_ne _ _ _ hne]
        simp only [sumNdt, cntNdt, validFor_cons, hcontrib,
          Bool.false_eq_true, if_false]

theorem ndtStats_findVal (l : List Entry) (node : String) :
    findVal node (ndtStats l) =
      if cntNdt node l = 0 then none
      else some (sumNdt node l, cntNdt node l) := by
  rw [ndtStats, ndtStatsAux_findVal]
  simp [findVal, afterStats]

/-! ## Every accumulated cell is strictly positive -/

theorem ndtOf_pos (e : Entry) (h : skipped e = false) : 0 < ndtOf e := by
  have h2 : ¬(e.hdfsBytes ≤ 0 ∨ e.finishTime ≤ e.startTime) := by
    simpa [skipped] using h
  push_neg at h2
  obtain ⟨hb, ht⟩ := h2
  have hb2 : (0 : ℚ) < (e.hdfsBytes : ℚ) := by exact_mod_cast hb
  have ht2 : (e.startTime : ℚ) < (e.finishTime : ℚ) := by exact_mod_cast ht
  have : (0 : ℚ) < ((e.finishTime : ℚ) - (e.startTime : ℚ)) / 1000 := by
    apply div_pos (by linarith) (by norm_num)
  exact div_pos this hb2

theorem addSample_pos (node : String) (x : ℚ) (hx : 0 < x) :
    ∀ (acc : List (String × ℚ × ℕ)),
      (∀ p ∈ acc, 0 < p.2.1 ∧ 0 < p.2.2) →
      ∀ p ∈ addSample acc node x, 0 < p.2.1 ∧ 0 < p.2.2 := by
  intro acc
  induction acc with
  | nil =>
    intro _ p hp
    simp [addSample] at hp
    subst hp
    exact ⟨hx, Nat.zero_lt_one⟩
  | cons q rest ih =>
    obtain ⟨n, s, c⟩ := q
    intro hall p hp
    have hhead := hall (n, s, c) (by simp)
    have htail : ∀ p ∈ rest, 0 < p.2.1 ∧ 0 < p.2.2 := fun p hp =>
      hall p (by simp [hp])
    by_cases hn : n = node
    · subst hn
      simp [addSample] at hp
      rcases hp with hp | hp
      · subst hp
        exact ⟨add_pos hhead.1 hx, Nat.succ_pos c⟩
      · exact htail p hp
    · simp [addSample, hn] at hp
      rcases hp with hp | hp
      · subst hp; exact hhead
      · exact ih htail p hp

theorem ndtStatsAux_pos :
    ∀ (l : List Entry) (acc : List (String × ℚ × ℕ)),
      (∀ p ∈ acc, 0 < p.2.1 ∧ 0 < p.2.2) →
      ∀ p ∈ ndtStatsAux acc l, 0 < p.2.1 ∧ 0 < p.2.2 := by
  intro l
  induction l with
  | nil => intro acc hall; simpa [ndtStatsAux] using hall
  | cons e rest ih =>
    intro acc hall
    by_cases hskip : skipped e
    · rw [ndtStatsAux, if_pos hskip]
      exact ih acc hall
    · rw [ndtStatsAux, if_neg hskip]
      refine ih _ ?_
      exact addSample_pos e.node (ndtOf e)
        (ndtOf_pos e (by simpa using hskip)) acc hall

theorem ndtStats_pos (l : List Entry) :
    ∀ p ∈ ndtStats l, 0 < p.2.1 ∧ 0 < p.2.2 := by
  exact ndtStatsAux_pos l [] (by simp)

theorem node_C_pos (l : List Entry) : ∀ p ∈ node_C l, 0 < p.2 := by
  intro p hp
  simp only [node_C, node_avg_ndt, List.map_map, List.mem_map,
    Function.comp] at hp
  obtain ⟨q, hq, rfl⟩ := hp
  obtain ⟨hs, hc⟩ := ndtStats_pos l q hq
  have havg : 0 < q.2.1 / (q.2.2 : ℚ) := by
    apply div_pos hs
    exact_mod_cast hc
  simp only [havg, if_pos]
  positivity

/-! ## Keys of the accumulated dict: first-insertion order, no duplicates -/

theorem keys_addSample (node : String) (x : ℚ) :
    ∀ (acc : List (String × ℚ × ℕ)),
      (addSample acc node x).map Prod.fst =
        if node ∈ acc.map Prod.fst then acc.map Prod.fst
        else acc.map Prod.fst ++ [node] := by
  intro acc
  induction acc with
  | nil => simp [addSample]
  | cons p rest ih =>
    obtain ⟨n, s, c⟩ := p
    by_cases hn : n = node
    · subst hn; simp [addSample]
    · have hne : node ≠ n := fun h => hn h.symm
      by_cases hmem : node ∈ rest.map Prod.fst
      · simp [addSample, hn, ih, hmem, hne]
      · simp [addSample, hn, ih, hmem, hne]

theorem nodup_keys_addSample (node : String) (x : ℚ)
    (acc : List (String × ℚ × ℕ)) (h : (acc.map Prod.fst).Nodup) :
    ((addSample acc node x).map Prod.fst).Nodup := by
  rw [keys_addSample]
  by_cases hmem : node ∈ acc.map Prod.fst
  · simpa [hmem] using h
  · simp only [hmem, if_false]
    simp [List.nodup_append, h, hmem]

theorem ndtStatsAux_nodup_keys :
    ∀ (l : List Entry) (acc : List (String × ℚ × ℕ)),
      (acc.map Prod.fst).Nodup → ((ndtStatsAux acc l).map Prod.fst).Nodup := by
  intro l
  induction l with
  | nil => intro acc h; simpa [ndtStatsAux] using h
  | cons e rest ih =>
    intro acc h
    by_cases hskip : skipped e
    · rw [ndtStatsAux, if_pos hskip]; exact ih acc h
    · rw [ndtStatsAux, if_neg hskip]
      exact ih _ (nodup_keys_addSample e.node (ndtOf e) acc h)

theorem ndtStats_nodup_keys (l : List Entry) :
    ((ndtStats l).map Prod.fst).Nodup :=
  ndtStatsAux_nodup_keys l [] (by simp)

/-! ## An association list with distinct keys is its lookup function -/

theorem findVal_eq_some_split {α : Type} {a : String} {b : α} :
    ∀ {L : List (String × α)}, findVal a L = some b →
      ∃ P Q, L = P ++ (a, b) :: Q ∧ a ∉ P.map Prod.fst := by
  intro L
  induction L with
  | nil => intro h; simp [findVal] at h
  | cons p rest ih =>
    obtain ⟨n, v⟩ := p
    intro h
    by_cases hn : n = a
    · subst hn
      simp [findVal] at h
      subst h
      exact ⟨[], rest, by simp⟩
    · rw [findVal, if_neg hn] at h
      obtain ⟨P, Q, rfl, hP⟩ := ih h
      refine ⟨(n, v) :: P, Q, by simp, ?_⟩
      simp only [List.map_cons, List.mem_cons, not_or]
      exact ⟨fun h2 => hn h2.symm, hP⟩

theorem perm_of_findVal_eq {α : Type} :
    ∀ (L1 L2 : List (String × α)),
      (L1.map Prod.fst).Nodup → (L2.map Prod.fst).Nodup →
      (∀ a, findVal a L1 = findVal a L2) → L1.Perm L2 := by
  intro L1
  induction L1 with
  | nil =>
    intro L2 _ _ h
    cases L2 with
    | nil => exact List.Perm.refl _
    | cons p rest =>
      obtain ⟨n, v⟩ := p
      have := h n
      simp [findVal] at this
  | cons p t ih =>
    intro L2 h1 h2 h
    obtain ⟨a, b⟩ := p
    have ha : findVal a L2 = some b := by
      rw [← h a]; simp [findVal]
    obtain ⟨P, Q, rfl, hP⟩ := findVal_eq_some_split ha
    have hkeys2 : (P.map Prod.fst ++ a :: Q.map Prod.fst).Nodup := by
      simpa using h2
    have hQ : a ∉ Q.map Prod.fst := by
      have h3 : (a :: Q.map Prod.fst).Nodup := hkeys2.of_append_right
      exact (List.nodup_cons.1 h3).1
    have hPQ : ((P ++ Q).map Prod.fst).Nodup := by
      have hsub : (P.map Prod.fst ++ Q.map Prod.fst).Sublist
          (P.map Prod.fst ++ a :: Q.map Prod.fst) :=
        List.Sublist.append_left (List.sublist_cons_self a _) _
      simpa using hkeys2.sublist hsub
    have h1' : (a :: t.map Prod.fst).Nodup := by simpa using h1
    have hat : a ∉ t.map Prod.fst := (List.nodup_cons.1 h1').1
    have ht : (t.map Prod.fst).Nodup := (List.nodup_cons.1 h1').2
    have hlook : ∀ c, findVal c t = findVal c (P ++ Q) := by
      intro c
      by_cases hc : c = a
      · subst hc
        have hL : findVal c t = none := (findVal_eq_none c t).2 hat
        have hR : findVal c (P ++ Q) = none := by
          rw [findVal_append]
          rw [(findVal_eq_none c P).2 hP, (findVal_eq_none c Q).2 hQ]
        rw [hL, hR]
      · have := h c
        rw [findVal, if_neg fun h2 => hc h2.symm] at this
        rw [this, findVal_append, findVal_append]
        cases hfp : findVal c P with
        | some v => simp [hfp]
        | none =>
          simp only [hfp]
          rw [findVal, if_neg fun h2 => hc h2.symm]
    have hperm : t.Perm (P ++ Q) := ih (P ++ Q) ht hPQ hlook
    exact ((hperm.cons (a, b)).trans List.perm_middle.symm)

/-! ## Emptiness, keys and the total capacity -/

theorem node_C_keys (l : List Entry) :
    (node_C l).map Prod.fst = (ndtStats l).map Prod.fst := by
  simp [node_C, node_avg_ndt, List.map_map, Function.comp]

theorem node_P_keys (l : List Entry) :
    (node_P l).map Prod.fst = (node_C l).map Prod.fst := by
  unfold node_P
  by_cases h : 0 < totalC l <;> simp [h, List.map_map, Function.comp]

theorem node_C_eq_nil_iff (l : List Entry) :
    node_C l = [] ↔ ndtStats l = [] := by
  simp [node_C, node_avg_ndt]

theorem node_P_eq_nil_iff (l : List Entry) :
    node_P l = [] ↔ node_C l = [] := by
  unfold node_P
  by_cases h : 0 < totalC l <;> simp [h]

theorem totalC_pos (l : List Entry) (h : node_C l ≠ []) : 0 < totalC l := by
  apply List.sum_pos
  · intro x hx
    simp only [List.mem_map] at hx
    obtain ⟨p, hp, rfl⟩ := hx
    exact node_C_pos l p hp
  · simpa using h

theorem sum_map_div (L : List ℚ) (T : ℚ) :
    (L.map fun x => x / T).sum = L.sum / T := by
  induction L with
  | nil => simp
  | cons x rest ih => simp [ih, add_div]

theorem weightSum_eq_one (l : List Entry) (h : node_P l ≠ []) :
    weightSum l = 1 := by
  have hC : node_C l ≠ [] := fun h2 => h ((node_P_eq_nil_iff l).2 h2)
  have hT : 0 < totalC l := totalC_pos l hC
  unfold weightSum node_P
  rw [if_pos hT]
  have : ((node_C l).map (fun p => (p.1, p.2 / totalC l))).map Prod.snd
      = ((node_C l).map Prod.snd).map fun x => x / totalC l := by
    simp [List.map_map, Function.comp]
  rw [this, sum_map_div]
  exact div_self (ne_of_gt hT)

/-! ## Order invariance of the aggregation -/

theorem sumNdt_perm (node : String) {l1 l2 : List Entry} (h : l1.Perm l2) :
    sumNdt node l1 = sumNdt node l2 :=
  List.Perm.sum_eq ((h.filter _).map ndtOf)

theorem cntNdt_perm (node : String) {l1 l2 : List Entry} (h : l1.Perm l2) :
    cntNdt node l1 = cntNdt node l2 :=
  List.Perm.length_eq (h.filter _)

theorem ndtStats_findVal_perm (node : String) {l1 l2 : List Entry}
    (h : l1.Perm l2) :
    findVal node (ndtStats l1) = findVal node (ndtStats l2) := by
  rw [ndtStats_findVal, ndtStats_findVal, sumNdt_perm node h, cntNdt_perm node h]

theorem ndtStats_perm {l1 l2 : List Entry} (h : l1.Perm l2) :
    (ndtStats l1).Perm (ndtStats l2) :=
  perm_of_findVal_eq _ _ (ndtStats_nodup_keys l1) (ndtStats_nodup_keys l2)
    fun a => ndtStats_findVal_perm a h

theorem findVal_node_avg (l : List Entry) (node : String) :
    findVal node (node_avg_ndt l) =
      (findVal node (ndtStats l)).map fun q => q.1 / (q.2 : ℚ) :=
  findVal_map node (fun q : ℚ × ℕ => q.1 / (q.2 : ℚ)) (ndtStats l)

theorem findVal_node_C (l : List Entry) (node : String) :
    findVal node (node_C l) =
      (findVal node (node_avg_ndt l)).map fun a => if 0 < a then 1 / a else 0 :=
  findVal_map node (fun a : ℚ => if 0 < a then 1 / a else 0) (node_avg_ndt l)

theorem node_C_perm {l1 l2 : List Entry} (h : l1.Perm l2) :
    (node_C l1).Perm (node_C l2) := by
  have h2 : (node_avg_ndt l1).Perm (node_avg_ndt l2) := by
    unfold node_avg_ndt
    exact (ndtStats_perm h).map _
  unfold node_C
  exact h2.map _

theorem totalC_perm {l1 l2 : List Entry} (h : l1.Perm l2) :
    totalC l1 = totalC l2 :=
  List.Perm.sum_eq ((node_C_perm h).map Prod.snd)

theorem findVal_node_C_perm (node : String) {l1 l2 : List Entry}
    (h : l1.Perm l2) :
    findVal node (node_C l1) = findVal node (node_C l2) := by
  rw [findVal_node_C, findVal_node_C, findVal_node_avg, findVal_node_avg,
    ndtStats_findVal_perm node h]

theorem findVal_node_P_perm (node : String) {l1 l2 : List Entry}
    (h : l1.Perm l2) :
    findVal node (node_P l1) = findVal node (node_P l2) := by
  have hT := totalC_perm h
  have hlen : (node_C l1).length = (node_C l2).length :=
    List.Perm.length_eq (node_C_perm h)
  unfold node_P
  by_cases hpos : 0 < totalC l1
  · have hpos2 : 0 < totalC l2 := by rw [← hT]; exact hpos
    rw [if_pos hpos, if_pos hpos2, ← hT]
    rw [findVal_map node (fun c : ℚ => c / totalC l1) (node_C l1),
      findVal_map node (fun c : ℚ => c / totalC l1) (node_C l2),
      findVal_node_C_perm node h]
  · have hpos2 : ¬0 < totalC l2 := by rw [← hT]; exact hpos
    rw [if_neg hpos, if_neg hpos2]
    rw [findVal_map node
        (fun _ : ℚ => if (node_C l1).length = 0 then 0
          else 1 / ((node_C l1).length : ℚ)) (node_C l1),
      findVal_map node
        (fun _ : ℚ => if (node_C l2).length = 0 then 0
          else 1 / ((node_C l2).length : ℚ)) (node_C l2),
      findVal_node_C_perm node h, hlen]

theorem ndtStatsAux_all_skipped :
    ∀ (l : List Entry) (acc : List (String × ℚ × ℕ)),
      (∀ e ∈ l, skipped e = true) → ndtStatsAux acc l = acc := by
  intro l
  induction l with
  | nil => intro acc _; rfl
  | cons e rest ih =>
    intro acc hall
    rw [ndtStatsAux, if_pos (hall e (by simp))]
    exact ih acc fun e2 he2 => hall e2 (by simp [he2])

theorem node_avg_ndt_pos (l : List Entry) :
    ∀ p ∈ node_avg_ndt l, 0 < p.2 := by
  intro p hp
  simp only [node_avg_ndt, List.mem_map] at hp
  obtain ⟨q, hq, rfl⟩ := hp
  obtain ⟨hs, hc⟩ := ndtStats_pos l q hq
  exact div_pos hs (by exact_mod_cast hc)

/-! ## Claims about the weight computer -/

/-- C1: for every sequence of execution records the weight mapping node_P
sums to exactly 1 whenever at least one output node exists; when totalC is
positive each weight is capacity / totalC; when totalC is zero every
observed node receives 1 / numNodes; the mapping is empty exactly when no
node was observed (the aggregated statistics are empty). Exact rational
arithmetic sharpens the 1e-6 tolerance to equality. -/
theorem C1_weight_normalization (entries : List Entry) :
    (node_P entries = [] ↔ ndtStats entries = []) ∧
    (node_P entries ≠ [] → weightSum entries = 1) ∧
    (0 < totalC entries →
      node_P entries = (node_C entries).map fun p => (p.1, p.2 / totalC entries)) ∧
    (totalC entries = 0 → ∀ p ∈ node_P entries,
      p.2 = 1 / ((node_C entries).length : ℚ)) := by
  refine ⟨?_, weightSum_eq_one entries, ?_, ?_⟩
  · rw [node_P_eq_nil_iff, node_C_eq_nil_iff]
  · intro hT
    rw [node_P, if_pos hT]
  · intro hT p hp
    have hT2 : ¬0 < totalC entries := by simp [hT]
    rw [node_P, if_neg hT2] at hp
    simp only [List.mem_map] at hp
    obtain ⟨q, hq, rfl⟩ := hp
    have hne : (node_C entries).length ≠ 0 := by
      intro h0
      rw [List.length_eq_zero.1 h0] at hq
      simp at hq
    simp [hne]

/-- C1 witness: on the two-record input of the spec's scenario the output
mapping is nonempty and its weights sum to exactly 1. -/
theorem C1_weight_normalization_witness :
    node_P [⟨"n1", 1000, 2000, 1000⟩, ⟨"n2", 1000, 3000, 1000⟩] ≠ [] ∧
    weightSum [⟨"n1", 1000, 2000, 1000⟩, ⟨"n2", 1000, 3000, 1000⟩] = 1 := by
  have hne : node_P [⟨"n1", 1000, 2000, 1000⟩, ⟨"n2", 1000, 3000, 1000⟩] ≠ [] := by
    have h : ("n1" : String) ≠ "n2" := by decide
    have hval : node_P [⟨"n1", 1000, 2000, 1000⟩, ⟨"n2", 1000, 3000, 1000⟩] =
        [("n1", 2 / 3), ("n2", 1 / 3)] := by
      norm_num [node_P, totalC, node_C, node_avg_ndt, ndtStats, ndtStatsAux,
        addSample, skipped, ndtOf, h]
    rw [hval]
    simp
  exact ⟨hne, (C1_weight_normalization _).2.1 hne⟩

/-- C3: a record is skipped exactly when bytesTransferred is nonpositive or
finishTime is at most startTime; the aggregated cell of a node is the sum of
the ndt ratios of its valid records together with their count; the node's
average is that sum over that count; two valid records for the same node
yield the average of their two ratios, not a summed capacity. -/
theorem C3_ndt_aggregation (l : List Entry) (node : String) :
    (∀ e : Entry, skipped e = true ↔
      (e.hdfsBytes ≤ 0 ∨ e.finishTime ≤ e.startTime)) ∧
    (findVal node (ndtStats l) =
      if cntNdt node l = 0 then none
      else some (sumNdt node l, cntNdt node l)) ∧
    (cntNdt node l ≠ 0 →
      findVal node (node_avg_ndt l) =
        some (sumNdt node l / (cntNdt node l : ℚ))) ∧
    (∀ e1 e2 : Entry, skipped e1 = false → skipped e2 = false →
      e1.node = node → e2.node = node →
      findVal node (node_avg_ndt [e1, e2]) =
        some ((ndtOf e1 + ndtOf e2) / 2)) := by
  refine ⟨fun e => by simp [skipped], ndtStats_findVal l node, ?_, ?_⟩
  · intro hc
    rw [findVal_node_avg, ndtStats_findVal, if_neg hc]
    rfl
  · intro e1 e2 h1 h2 hn1 hn2
    rw [findVal_node_avg]
    have hstats : ndtStats [e1, e2] = [(node, ndtOf e1 + ndtOf e2, 2)] := by
      simp [ndtStats, ndtStatsAux, h1, h2, addSample, hn1, hn2]
    rw [hstats]
    simp [findVal]

/-- C3 witness: on two valid records for the node n1 the aggregated cell
holds the sum of the two ratios with count 2 and the average is their mean. -/
theorem C3_ndt_aggregation_witness :
    (cntNdt "n1" [⟨"n1", 0, 1000, 10⟩, ⟨"n1", 0, 2000, 10⟩] ≠ 0 ∧
      skipped ⟨"n1", 0, 1000, 10⟩ = false ∧
      skipped ⟨"n1", 0, 2000, 10⟩ = false) ∧
    findVal "n1" (node_avg_ndt [⟨"n1", 0, 1000, 10⟩, ⟨"n1", 0, 2000, 10⟩]) =
      some ((ndtOf ⟨"n1", 0, 1000, 10⟩ + ndtOf ⟨"n1", 0, 2000, 10⟩) / 2) := by
  refine ⟨⟨by decide, by decide, by decide⟩, ?_⟩
  exact (C3_ndt_aggregation [⟨"n1", 0, 1000, 10⟩, ⟨"n1", 0, 2000, 10⟩]
    "n1").2.2.2 _ _ (by decide) (by decide) rfl rfl

/-- C4: on the records (n1, 1000, 2000, 1000) and (n2, 1000, 3000, 1000) the
computer yields average ndt 1/1000 (0.001) and capacity 1000 for n1, average
ndt 1/500 (0.002) and capacity 500 for n2, and weights 2/3 for n1 and 1/3
for n2, summing to exactly 1. -/
theorem C4_two_node_scenario :
    node_avg_ndt [⟨"n1", 1000, 2000, 1000⟩, ⟨"n2", 1000, 3000, 1000⟩] =
      [("n1", 1 / 1000), ("n2", 1 / 500)] ∧
    node_C [⟨"n1", 1000, 2000, 1000⟩, ⟨"n2", 1000, 3000, 1000⟩] =
      [("n1", 1000), ("n2", 500)] ∧
    node_P [⟨"n1", 1000, 2000, 1000⟩, ⟨"n2", 1000, 3000, 1000⟩] =
      [("n1", 2 / 3), ("n2", 1 / 3)] ∧
    weightSum [⟨"n1", 1000, 2000, 1000⟩, ⟨"n2", 1000, 3000, 1000⟩] = 1 := by
  have h : ("n1" : String) ≠ "n2" := by decide
  refine ⟨?_, ?_, ?_, ?_⟩ <;>
    norm_num [weightSum, node_P, totalC, node_C, node_avg_ndt, ndtStats,
      ndtStatsAux, addSample, skipped, ndtOf, h]

/-- C5: a node whose records are all skipped does not appear among the keys
of the capacity or of the weight mapping; in particular when every record
has bytesTransferred equal to 0 both mappings are empty. -/
theorem C5_invalid_records_omitted (l : List Entry) (node : String) :
    ((∀ e ∈ l, e.node = node → skipped e = true) →
      node ∉ (node_C l).map Prod.fst ∧ node ∉ (node_P l).map Prod.fst) ∧
    ((∀ e ∈ l, e.hdfsBytes = 0) → node_C l = [] ∧ node_P l = []) := by
  constructor
  · intro hall
    have hcnt : cntNdt node l = 0 := by
      simp only [cntNdt, validFor, List.length_eq_zero,
        List.filter_eq_nil_iff]
      intro e he
      by_cases hn : e.node = node
      · simp [hall e he hn]
      · simp [hn]
    have hnone : findVal node (ndtStats l) = none := by
      rw [ndtStats_findVal, if_pos hcnt]
    have hkeys : node ∉ (ndtStats l).map Prod.fst :=
      (findVal_eq_none node (ndtStats l)).1 hnone
    refine ⟨by rwa [node_C_keys], by rwa [node_P_keys, node_C_keys]⟩
  · intro hall
    have hskip : ∀ e ∈ l, skipped e = true := by
      intro e he
      simp [skipped, hall e he]
    have hstats : ndtStats l = [] := ndtStatsAux_all_skipped l [] hskip
    have hC : node_C l = [] := (node_C_eq_nil_iff l).2 hstats
    exact ⟨hC, (node_P_eq_nil_iff l).2 hC⟩

/-- C5 witness: a single record with zero bytes for node n1 is skipped, so
n1 does not appear and the mappings are empty. -/
theorem C5_invalid_records_omitted_witness :
    ((∀ e ∈ [(⟨"n1", 1000, 2000, 0⟩ : Entry)], e.node = "n1" →
        skipped e = true) ∧
      (∀ e ∈ [(⟨"n1", 1000, 2000, 0⟩ : Entry)], e.hdfsBytes = 0)) ∧
    ("n1" ∉ (node_C [(⟨"n1", 1000, 2000, 0⟩ : Entry)]).map Prod.fst ∧
      node_P [(⟨"n1", 1000, 2000, 0⟩ : Entry)] = []) := by
  have h1 : ∀ e ∈ [(⟨"n1", 1000, 2000, 0⟩ : Entry)], e.node = "n1" →
      skipped e = true := by decide
  have h2 : ∀ e ∈ [(⟨"n1", 1000, 2000, 0⟩ : Entry)], e.hdfsBytes = 0 := by
    decide
  have h := C5_invalid_records_omitted [(⟨"n1", 1000, 2000, 0⟩ : Entry)] "n1"
  exact ⟨⟨h1, h2⟩, (h.1 h1).1, (h.2 h2).2⟩

/-- C7: the computer's output is invariant to the order of the input
records: a permutation of the input leaves the node to capacity and the
node to weight mappings unchanged (as mappings, exact arithmetic). -/
theorem C7_order_invariance (l1 l2 : List Entry) (h : l1.Perm l2) :
    (∀ node, findVal node (node_C l1) = findVal node (node_C l2)) ∧
    (∀ node, findVal node (node_P l1) = findVal node (node_P l2)) :=
  ⟨fun node => findVal_node_C_perm node h,
   fun node => findVal_node_P_perm node h⟩

/-- C7 witness: swapping the two records of the scenario input changes
neither mapping. -/
theorem C7_order_invariance_witness :
    ([⟨"n1", 1000, 2000, 1000⟩, ⟨"n2", 1000, 3000, 1000⟩] :
        List Entry).Perm
      [⟨"n2", 1000, 3000, 1000⟩, ⟨"n1", 1000, 2000, 1000⟩] ∧
    ((∀ node, findVal node
        (node_C [⟨"n1", 1000, 2000, 1000⟩, ⟨"n2", 1000, 3000, 1000⟩]) =
      findVal node
        (node_C [⟨"n2", 1000, 3000, 1000⟩, ⟨"n1", 1000, 2000, 1000⟩])) ∧
     (∀ node, findVal node
        (node_P [⟨"n1", 1000, 2000, 1000⟩, ⟨"n2", 1000, 3000, 1000⟩]) =
      findVal node
        (node_P [⟨"n2", 1000, 3000, 1000⟩, ⟨"n1", 1000, 2000, 1000⟩]))) :=
  ⟨List.Perm.swap _ _ _,
   C7_order_invariance _ _ (List.Perm.swap _ _ _)⟩

/-- C10: the weight mapping and the capacity mapping carry the same keys in
the same order; every produced average ndt and every produced capacity is
strictly positive, so the zero-capacity branch writes no zero; and the total
capacity is positive whenever at least one node was observed, making the
uniform fallback unreachable for a nonempty output. -/
theorem C10_positive_capacities (entries : List Entry) :
    (node_P entries).map Prod.fst = (node_C entries).map Prod.fst ∧
    (∀ p ∈ node_avg_ndt entries, 0 < p.2) ∧
    (∀ p ∈ node_C entries, 0 < p.2) ∧
    (node_C entries ≠ [] → 0 < totalC entries) :=
  ⟨node_P_keys entries, node_avg_ndt_pos entries, node_C_pos entries,
   totalC_pos entries⟩

/-- C10 witness: on the scenario input the capacity list is nonempty and the
total capacity is positive. -/
theorem C10_positive_capacities_witness :
    node_C [⟨"n1", 1000, 2000, 1000⟩, ⟨"n2", 1000, 3000, 1000⟩] ≠ [] ∧
    0 < totalC [⟨"n1", 1000, 2000, 1000⟩, ⟨"n2", 1000, 3000, 1000⟩] := by
  have hne : node_C [⟨"n1", 1000, 2000, 1000⟩, ⟨"n2", 1000, 3000, 1000⟩]
      ≠ [] := by
    have h : ("n1" : String) ≠ "n2" := by decide
    have hval : node_C [⟨"n1", 1000, 2000, 1000⟩, ⟨"n2", 1000, 3000, 1000⟩] =
        [("n1", 1000), ("n2", 500)] := by
      norm_num [node_C, node_avg_ndt, ndtStats, ndtStatsAux, addSample,
        skipped, ndtOf, h]
    rw [hval]
    simp
  exact ⟨hne,
    (C10_positive_capacities
      [⟨"n1", 1000, 2000, 1000⟩, ⟨"n2", 1000, 3000, 1000⟩]).2.2.2 hne⟩

/-! ## The configuration document and update_hdfs_site_property

Shallow embedding of update_hdfs_site_property from
src/anode_agent_apply.py. A ConfigDocument is the ordered list of the root
element's children: property elements (an optional name text and an
optional value text) and non-property elements, which the scan loop
(root.findall of property) never visits. -/

inductive ConfigItem where
  | prop (name : Option String) (val : Option String)
  | other (tag : String)
deriving DecidableEq

/-- The match test of the scan loop: the property has a name child whose
text equals prop_name (`name is not None and name.text == prop_name`). -/
def matchesName (k : String) : ConfigItem → Bool
  | .prop (some n) _ => n == k
  | _ => false

/-- Overwriting the value child, creating it when the property lacked one:
`if val is None: val = ET.SubElement(prop, 'value')` then
`val.text = prop_value`. -/
def setValue (v : String) : ConfigItem → ConfigItem
  | .prop n _ => .prop n (some v)
  | i => i

/-- update_hdfs_site_property: set the value of the first property whose
name matches and return; otherwise append a new property with the given
name and value at the end of the document. -/
def update_hdfs_site_property :
    List ConfigItem → String → String → List ConfigItem
  | [], k, v => [.prop (some k) (some v)]
  | i :: rest, k, v =>
    if matchesName k i then setValue v i :: rest
    else i :: update_hdfs_site_property rest k v

/-- Number of properties of the document whose name matches k. -/
def countNamed (k : String) (doc : List ConfigItem) : ℕ :=
  (doc.filter (matchesName k)).length

theorem matchesName_elim {k : String} {i : ConfigItem}
    (h : matchesName k i = true) : ∃ w, i = .prop (some k) w := by
  cases i with
  | prop n w =>
    cases n with
    | none => simp [matchesName] at h
    | some m =>
      simp only [matchesName, beq_iff_eq] at h
      subst h
      exact ⟨w, rfl⟩
  | other t => simp [matchesName] at h

theorem matchesName_setValue (k v : String) (i : ConfigItem)
    (h : matchesName k i = true) :
    matchesName k (setValue v i) = true := by
  obtain ⟨w, rfl⟩ := matchesName_elim h
  simp [matchesName, setValue]

theorem upsert_no_match (k v : String) :
    ∀ (doc : List ConfigItem), (∀ i ∈ doc, matchesName k i = false) →
      update_hdfs_site_property doc k v = doc ++ [.prop (some k) (some v)] := by
  intro doc
  induction doc with
  | nil => intro _; rfl
  | cons i rest ih =>
    intro hall
    rw [update_hdfs_site_property, if_neg (by simp [hall i (by simp)])]
    simp [ih fun j hj => hall j (by simp [hj])]

theorem filter_not_upsert (k v : String) :
    ∀ (doc : List ConfigItem),
      (update_hdfs_site_property doc k v).filter (fun i => !matchesName k i) =
        doc.filter fun i => !matchesName k i := by
  intro doc
  induction doc with
  | nil => simp [update_hdfs_site_property, matchesName]
  | cons i rest ih =>
    by_cases hm : matchesName k i
    · rw [update_hdfs_site_property, if_pos hm]
      simp [List.filter_cons, hm, matchesName_setValue k v i hm]
    · rw [update_hdfs_site_property, if_neg hm]
      simp only [Bool.not_eq_true] at hm
      simp [List.filter_cons, hm, ih]

theorem filter_match_upsert (k v : String) :
    ∀ (doc : List ConfigItem),
      (update_hdfs_site_property doc k v).filter (matchesName k) =
        match doc.filter (matchesName k) with
        | [] => [ConfigItem.prop (some k) (some v)]
        | p :: rest => setValue v p :: rest := by
  intro doc
  induction doc with
  | nil => simp [update_hdfs_site_property, matchesName]
  | cons i rest ih =>
    by_cases hm : matchesName k i
    · rw [update_hdfs_site_property, if_pos hm]
      simp [List.filter_cons, hm, matchesName_setValue k v i hm]
    · rw [update_hdfs_site_property, if_neg hm]
      simp only [Bool.not_eq_true] at hm
      simp [List.filter_cons, hm, ih]

/-! ## Claims about the upsert -/

/-- C2 counterexample: on a document that already holds two properties named
k, upserting k twice leaves two properties named k (the scan rewrites only
the first match), refuting the claim that every document ends with exactly
one property named k. -/
theorem C2_counterexample :
    update_hdfs_site_property
      (update_hdfs_site_property
        [ConfigItem.prop (some "k") (some "a"),
         ConfigItem.prop (some "k") (some "b")] "k" "v1") "k" "v2" =
      [ConfigItem.prop (some "k") (some "v2"),
       ConfigItem.prop (some "k") (some "b")] ∧
    countNamed "k"
      (update_hdfs_site_property
        (update_hdfs_site_property
          [ConfigItem.prop (some "k") (some "a"),
           ConfigItem.prop (some "k") (some "b")] "k" "v1") "k" "v2") = 2 := by
  constructor <;> rfl

/-- C2 amended: for every configuration document holding at most one
property named k, upsert(doc, k, v1) followed by upsert(doc, k, v2) yields a
document with exactly one property named k, whose value is v2, and all
other items unchanged in content and relative order. -/
theorem C2_upsert_latest_wins (doc : List ConfigItem) (k v1 v2 : String)
    (h : countNamed k doc ≤ 1) :
    (update_hdfs_site_property (update_hdfs_site_property doc k v1) k v2).filter
        (matchesName k) = [ConfigItem.prop (some k) (some v2)] ∧
    countNamed k
      (update_hdfs_site_property (update_hdfs_site_property doc k v1) k v2) = 1 ∧
    (update_hdfs_site_property (update_hdfs_site_property doc k v1) k v2).filter
        (fun i => !matchesName k i) = doc.filter fun i => !matchesName k i := by
  have hmatch :
      (update_hdfs_site_property (update_hdfs_site_property doc k v1) k v2).filter
        (matchesName k) = [ConfigItem.prop (some k) (some v2)] := by
    rw [filter_match_upsert, filter_match_upsert]
    cases hf : doc.filter (matchesName k) with
    | nil => simp [setValue]
    | cons p tail =>
      have hlen : (doc.filter (matchesName k)).length ≤ 1 := h
      rw [hf] at hlen
      have htail : tail = [] := by
        apply List.length_eq_zero.1
        simp only [List.length_cons] at hlen
        omega
      subst htail
      have hp : matchesName k p = true := by
        have : p ∈ doc.filter (matchesName k) := by rw [hf]; simp
        exact List.of_mem_filter this
      obtain ⟨w, rfl⟩ := matchesName_elim hp
      simp [setValue]
  refine ⟨hmatch, ?_, ?_⟩
  · rw [countNamed, hmatch]
    rfl
  · rw [filter_not_upsert, filter_not_upsert]

/-- C2 witness: on a one-property document without the name k the two
upserts produce exactly one property named k carrying v2 and leave the
original property untouched. -/
theorem C2_upsert_latest_wins_witness :
    countNamed "k" [ConfigItem.prop (some "a") (some "x")] ≤ 1 ∧
    ((update_hdfs_site_property
        (update_hdfs_site_property
          [ConfigItem.prop (some "a") (some "x")] "k" "v1") "k" "v2").filter
        (matchesName "k") = [ConfigItem.prop (some "k") (some "v2")] ∧
      countNamed "k"
        (update_hdfs_site_property
          (update_hdfs_site_property
            [ConfigItem.prop (some "a") (some "x")] "k" "v1") "k" "v2") = 1 ∧
      (update_hdfs_site_property
        (update_hdfs_site_property
          [ConfigItem.prop (some "a") (some "x")] "k" "v1") "k" "v2").filter
        (fun i => !matchesName "k" i) =
      [ConfigItem.prop (some "a") (some "x")].filter
        fun i => !matchesName "k" i) :=
  ⟨by decide,
   C2_upsert_latest_wins [ConfigItem.prop (some "a") (some "x")] "k" "v1" "v2"
     (by decide)⟩

/-- C6: on a document with no property named k, upsert appends exactly one
new property with name k and value v at the end, preserving all prior items
unchanged and in order, and the length grows by exactly one. -/
theorem C6_upsert_appends (doc : List ConfigItem) (k v : String)
    (h : countNamed k doc = 0) :
    update_hdfs_site_property doc k v =
      doc ++ [ConfigItem.prop (some k) (some v)] ∧
    (update_hdfs_site_property doc k v).length = doc.length + 1 := by
  have hall : ∀ i ∈ doc, matchesName k i = false := by
    have := (List.filter_eq_nil_iff).1 (List.length_eq_zero.1 h)
    intro i hi
    simpa using this i hi
  have happ := upsert_no_match k v doc hall
  exact ⟨happ, by rw [happ]; simp⟩

/-- C6 witness: appending to a two-item document (one property of another
name, one non-property element) adds the new property at the end. -/
theorem C6_upsert_appends_witness :
    countNamed "k"
      [ConfigItem.prop (some "a") (some "x"), ConfigItem.other "comment"] = 0 ∧
    (update_hdfs_site_property
        [ConfigItem.prop (some "a") (some "x"), ConfigItem.other "comment"]
        "k" "v" =
      [ConfigItem.prop (some "a") (some "x"), ConfigItem.other "comment",
        ConfigItem.prop (some "k") (some "v")] ∧
      (update_hdfs_site_property
        [ConfigItem.prop (some "a") (some "x"), ConfigItem.other "comment"]
        "k" "v").length =
      [ConfigItem.prop (some "a") (some "x"),
        ConfigItem.other "comment"].length + 1) :=
  ⟨by decide,
   C6_upsert_appends
     [ConfigItem.prop (some "a") (some "x"), ConfigItem.other "comment"]
     "k" "v" (by decide)⟩

/-! ## The deployment sequence of anode_agent_apply.main

The four effectful steps of main are modelled by their outcomes: a failing
hdfs_put or update_hdfs_site_property raises (subprocess.check_call or the
XML read/write), and main catches nothing around steps 1 to 3, so the
exception propagates and the run aborts; step 4 (run_reconfig) sits in a
try/except that prints a warning and falls through. The model records the
trace of started steps and whether the run raised or finished. -/

inductive Step where
  | putWeights
  | upsertLocation
  | upsertInline
  | reconfig
deriving DecidableEq

/-- Which of the four effects succeed in a given run of the environment. -/
structure Env where
  putOk : Bool
  upsertLocationOk : Bool
  upsertInlineOk : Bool
  reconfigOk : Bool

/-- One effectful call: extend the trace; raise (error) when the effect
fails. -/
def runCall (ok : Bool) (s : Step) (tr : List Step) :
    Except (List Step) (List Step) :=
  if ok then .ok (tr ++ [s]) else .error (tr ++ [s])

/-- The body of main after argument parsing: steps 1 to 3 propagate any
exception; step 4 is wrapped in try/except, turning its failure into a
warning. The result carries the trace of started steps and, on success,
whether the reconfig warning was printed. -/
def mainRun (env : Env) : Except (List Step) (List Step × Bool) :=
  match runCall env.putOk .putWeights [] with
  | .error tr => .error tr
  | .ok tr =>
    match runCall env.upsertLocationOk .upsertLocation tr with
    | .error tr2 => .error tr2
    | .ok tr2 =>
      match runCall env.upsertInlineOk .upsertInline tr2 with
      | .error tr3 => .error tr3
      | .ok tr3 =>
        match runCall env.reconfigOk .reconfig tr3 with
        | .ok tr4 => .ok (tr4, false)
        | .error tr4 => .ok (tr4, true)

/-- C9: a failure of the artifact publish or of either upsert raises and
aborts the run with no later step started, while a failure of the final
reconfiguration signal is caught: the run still finishes successfully after
all four steps, with the warning flag set exactly when the signal failed. -/
theorem C9_error_policy (env : Env) :
    (env.putOk = false → mainRun env = .error [.putWeights]) ∧
    (env.putOk = true → env.upsertLocationOk = false →
      mainRun env = .error [.putWeights, .upsertLocation]) ∧
    (env.putOk = true → env.upsertLocationOk = true →
      env.upsertInlineOk = false →
      mainRun env = .error [.putWeights, .upsertLocation, .upsertInline]) ∧
    (env.putOk = true → env.upsertLocationOk = true →
      env.upsertInlineOk = true →
      mainRun env =
        .ok ([.putWeights, .upsertLocation, .upsertInline, .reconfig],
          !env.reconfigOk)) := by
  obtain ⟨p, u1, u2, r⟩ := env
  refine ⟨?_, ?_, ?_, ?_⟩ <;>
    · intros
      subst_vars
      cases r <;> rfl

/-- C9 witness: in an environment where only the reconfiguration signal
fails the run completes all four steps successfully with the warning set. -/
theorem C9_error_policy_witness :
    ((Env.mk true true true false).putOk = true ∧
      (Env.mk true true true false).upsertLocationOk = true ∧
      (Env.mk true true true false).upsertInlineOk = true) ∧
    mainRun (Env.mk true true true false) =
      .ok ([.putWeights, .upsertLocation, .upsertInline, .reconfig], true) :=
  ⟨⟨rfl, rfl, rfl⟩,
   (C9_error_policy (Env.mk true true true false)).2.2.2 rfl rfl rfl⟩

/-! ## The JobHistory XML extractor

Shallow embedding of parse_history_xml from
src/parse_jobhistory_and_compute_weights.py. An XML element carries its
tag, its own text and its children; findall with a descendant path collects
matching elements in document order; findtext returns the text of the first
matching direct child, with the empty string for a present but empty
element. -/

inductive XElem where
  | mk (tag : String) (text : Option String) (children : List XElem)

def XElem.tag : XElem → String
  | .mk t _ _ => t

def XElem.text : XElem → Option String
  | .mk _ x _ => x

def XElem.children : XElem → List XElem
  | .mk _ _ c => c

/-- findtext over a direct child path: the text of the first child with the
given tag, the empty string when that child has no text, none when there is
no such child. -/
def findtext (e : XElem) (t : String) : Option String :=
  match e.children.find? (fun c => c.tag == t) with
  | none => none
  | some c => some (c.text.getD "")

/-- The value a Python `or` chain of findtext results contributes: the
first operand that is neither None nor the empty string (both are falsy). -/
def firstTruthy : List (Option String) → Option String
  | [] => none
  | none :: rest => firstTruthy rest
  | some s :: rest => if s = "" then firstTruthy rest else some s

/-- Python int() on the simple numeral strings the extractor meets: an
optional sign followed by one or more decimal digits; anything else raises,
which the per-element handler catches. -/
def natDigits? (cs : List Char) : Option ℕ :=
  if cs ≠ [] ∧ cs.all Char.isDigit then
    some (cs.foldl (fun a c => 10 * a + (c.toNat - 48)) 0)
  else none

def toInt? (s : String) : Option Int :=
  match s.data with
  | '-' :: rest => (natDigits? rest).map fun n => -(n : Int)
  | '+' :: rest => (natDigits? rest).map fun n => (n : Int)
  | cs => (natDigits? cs).map fun n => (n : Int)

/-- int() of an `or` chain whose last operand is a findtext result: when no
operand is truthy the chain yields None or the empty string and int()
raises. -/
def intChain (l : List (Option String)) : Option Int :=
  (firstTruthy l).bind toInt?

/-- int() of an `or` chain whose last operand is the literal 0: when no
operand is truthy the value is 0. -/
def intChainOrZero (l : List (Option String)) : Option Int :=
  match firstTruthy l with
  | none => some 0
  | some s => toInt? s

/-- The body of the primary loop over taskAttempt elements; none models the
continue of the per-element except handler. -/
def parseTaskAttempt (t : XElem) : Option (String × Int × Int × Int) := do
  let start ← intChain [findtext t "startTime", findtext t "start"]
  let finish ← intChain [findtext t "finishTime", findtext t "finish"]
  let bytes ← intChainOrZero
    [findtext t "hdfsBytesRead", findtext t "hdfs_bytes_read"]
  let tracker := (firstTruthy
    [findtext t "trackerName", findtext t "node"]).getD "unknown"
  some (tracker, start, finish, bytes)

/-- The body of the fallback loop over map elements: only the unaliased
field names are read, each defaulting through `or 0` (or to the literal
unknown for the tracker). -/
def parseMap (m : XElem) : Option (String × Int × Int × Int) := do
  let start ← intChainOrZero [findtext m "startTime"]
  let finish ← intChainOrZero [findtext m "finishTime"]
  let bytes ← intChainOrZero [findtext m "hdfsBytesRead"]
  let tracker := (firstTruthy [findtext m "trackerName"]).getD "unknown"
  some (tracker, start, finish, bytes)

mutual

/-- The matches of a descendant path search inside one element (the element
itself included), in document order. -/
def findallIn (tag : String) : XElem → List XElem
  | .mk t x cs => (if t == tag then [XElem.mk t x cs] else []) ++
      findallInList tag cs

/-- The matches of a descendant path search inside a forest. -/
def findallInList (tag : String) : List XElem → List XElem
  | [] => []
  | c :: cs => findallIn tag c ++ findallInList tag cs

end

/-- parse_history_xml: collect records from every taskAttempt descendant,
and only when that yields zero records fall back to the map descendants;
elements that fail coercion are dropped one by one. -/
def parse_history_xml (root : XElem) : List (String × Int × Int × Int) :=
  let results :=
    (findallInList "taskAttempt" root.children).filterMap parseTaskAttempt
  if results = [] then
    (findallInList "map" root.children).filterMap parseMap
  else results

/-- Fallback element parser as the claim words it — with the same field
aliases as the primary shape. Written from the claim's text for comparison
with parseMap; it is not code of the repository. -/
def parseMapClaim (m : XElem) : Option (String × Int × Int × Int) := do
  let start ← intChainOrZero [findtext m "startTime", findtext m "start"]
  let finish ← intChainOrZero [findtext m "finishTime", findtext m "finish"]
  let bytes ← intChainOrZero
    [findtext m "hdfsBytesRead", findtext m "hdfs_bytes_read"]
  let tracker := (firstTruthy
    [findtext m "trackerName", findtext m "node"]).getD "unknown"
  some (tracker, start, finish, bytes)

/-- A history document holding one map element that uses only the alias
field names start, finish, hdfs_bytes_read and node. -/
def aliasMapDoc : XElem :=
  .mk "jobHistory" none
    [.mk "map" none
      [.mk "start" (some "1000") [],
       .mk "finish" (some "2000") [],
       .mk "hdfs_bytes_read" (some "7") [],
       .mk "node" (some "n9") []]]

/-! ## Claims about the extractor -/

/-- C8 counterexample: on a document whose single map element carries its
data under the alias names, the code ignores every alias field and emits
the all-default record, while the claim's alias-honoring fallback would
read the aliases; the two outputs differ. -/
theorem C8_counterexample :
    parse_history_xml aliasMapDoc = [("unknown", 0, 0, 0)] ∧
    (findallInList "map" aliasMapDoc.children).filterMap parseMapClaim =
      [("n9", 1000, 2000, 7)] ∧
    [(("unknown" : String), (0 : Int), (0 : Int), (0 : Int))] ≠
      [(("n9" : String), (1000 : Int), (2000 : Int), (7 : Int))] :=
  ⟨rfl, rfl, by decide⟩

/-- C8 amended: extraction tries taskAttempt elements with the field
aliases startTime or start, finishTime or finish, hdfsBytesRead or
hdfs_bytes_read (bytes defaulting to 0) and trackerName or node (defaulting
to unknown); if and only if that yields zero records it tries map elements
reading only the unaliased names startTime, finishTime, hdfsBytesRead and
trackerName — alias-named fields are ignored there — defaulting start,
finish and bytes to 0 and the tracker to unknown instead of failing; an
element that cannot be coerced is dropped without aborting the others. -/
theorem C8_two_tier_extraction :
    (∀ root : XElem,
      ((findallInList "taskAttempt" root.children).filterMap parseTaskAttempt
          ≠ [] →
        parse_history_xml root =
          (findallInList "taskAttempt" root.children).filterMap
            parseTaskAttempt) ∧
      ((findallInList "taskAttempt" root.children).filterMap parseTaskAttempt
          = [] →
        parse_history_xml root =
          (findallInList "map" root.children).filterMap parseMap)) ∧
    (∀ (l1 l2 : List XElem) (bad : XElem), parseTaskAttempt bad = none →
      (l1 ++ bad :: l2).filterMap parseTaskAttempt =
        (l1 ++ l2).filterMap parseTaskAttempt) ∧
    (∀ (l1 l2 : List XElem) (bad : XElem), parseMap bad = none →
      (l1 ++ bad :: l2).filterMap parseMap = (l1 ++ l2).filterMap parseMap) ∧
    (∀ sst sfin sby snode : String, ∀ ist ifin iby : Int,
      toInt? sst = some ist → toInt? sfin = some ifin →
      toInt? sby = some iby → sst ≠ "" → sfin ≠ "" → sby ≠ "" → snode ≠ "" →
      parseTaskAttempt (.mk "taskAttempt" none
        [.mk "start" (some sst) [], .mk "finish" (some sfin) [],
         .mk "hdfs_bytes_read" (some sby) [], .mk "node" (some snode) []]) =
        some (snode, ist, ifin, iby)) ∧
    (∀ sst : String, ∀ ist : Int, toInt? sst = some ist → sst ≠ "" →
      parseMap (.mk "map" none [.mk "startTime" (some sst) []]) =
        some ("unknown", ist, 0, 0)) ∧
    (∀ sst sfin sby snode : String,
      parseMap (.mk "map" none
        [.mk "start" (some sst) [], .mk "finish" (some sfin) [],
         .mk "hdfs_bytes_read" (some sby) [], .mk "node" (some snode) []]) =
        some ("unknown", 0, 0, 0)) := by
  refine ⟨?_, ?_, ?_, ?_, ?_, ?_⟩
  · intro root
    constructor <;> intro h <;> simp [parse_history_xml, h]
  · intro l1 l2 bad h
    simp [List.filterMap_append, List.filterMap_cons, h]
  · intro l1 l2 bad h
    simp [List.filterMap_append, List.filterMap_cons, h]
  · intro sst sfin sby snode ist ifin iby h1 h2 h3 hs1 hs2 hs3 hs4
    simp [parseTaskAttempt, findtext, List.find?, XElem.tag, XElem.text,
      XElem.children, intChain, intChainOrZero, firstTruthy,
      hs1, hs2, hs3, hs4, h1, h2, h3]
  · intro sst ist h1 hs1
    simp [parseMap, findtext, List.find?, XElem.tag, XElem.text,
      XElem.children, intChainOrZero, firstTruthy, hs1, h1]
  · intro sst sfin sby snode
    rfl

/-- C8 witness: the amended behavior at concrete fields — a taskAttempt
element written entirely with aliases parses to its record, and a map
element written with aliases parses to the all-default record. -/
theorem C8_two_tier_extraction_witness :
    (toInt? "1000" = some 1000 ∧ toInt? "2000" = some 2000 ∧
      toInt? "7" = some 7 ∧ ("1000" : String) ≠ "" ∧
      ("2000" : String) ≠ "" ∧ ("7" : String) ≠ "" ∧
      ("n9" : String) ≠ "") ∧
    parseTaskAttempt (.mk "taskAttempt" none
      [.mk "start" (some "1000") [], .mk "finish" (some "2000") [],
       .mk "hdfs_bytes_read" (some "7") [], .mk "node" (some "n9") []]) =
      some ("n9", 1000, 2000, 7) := by
  refine ⟨⟨by decide, by decide, by decide, by decide, by decide, by decide,
    by decide⟩, ?_⟩
  exact C8_two_tier_extraction.2.2.2.1 "1000" "2000" "7" "n9" 1000 2000 7
    (by decide) (by decide) (by decide) (by decide) (by decide) (by decide)
    (by decide)

end ANODE
